import Mathlib

/-!
Verification of the blob-storage API core (routes/blob.js, marker-based
variant) against its design specification.

JavaScript strings are modelled as lists of characters (`JSStr`); byte
sequences (Node `Buffer`s) as lists of naturals.  The byte encoding of a
string is modelled as the sequence of character scalar values, which agrees
with Node's UTF-8 encoding on ASCII data; theorems that depend on this
byte-level correspondence carry an ASCII hypothesis.
-/

set_option maxRecDepth 20000

/-- A JavaScript string, modelled as its list of characters. -/
abbrev JSStr := List Char

/-- Convert a Lean string literal into the `JSStr` model. -/
def jstr (s : String) : JSStr := s.data

/-- Bytes of a string (`Buffer.from(s)`), modelled as character scalar
values; coincides with UTF-8 exactly on ASCII strings. -/
def bytesOf (s : JSStr) : List Nat := s.map Char.toNat

/-- Decode bytes back into a string (`buf.toString('utf8')` on ASCII data). -/
def strOfBytes (bs : List Nat) : JSStr := bs.map Char.ofNat

/-- Association-list lookup with decidable keys. -/
def alookup {κ : Type} {v : Type} [DecidableEq κ] (k : κ) :
    List (κ × v) → Option v
  | [] => none
  | (k', x) :: rest => if k' = k then some x else alookup k rest

/-- Association-list update: replaces any existing binding of the key. -/
def aset {κ : Type} {v : Type} [DecidableEq κ] (k : κ) (x : v)
    (l : List (κ × v)) : List (κ × v) :=
  (k, x) :: l.filter (fun p => !decide (p.1 = k))

/-- Association-list removal of a key. -/
def aerase {κ : Type} {v : Type} [DecidableEq κ] (k : κ)
    (l : List (κ × v)) : List (κ × v) :=
  l.filter (fun p => !decide (p.1 = k))

/-- The character for a single decimal digit. -/
def digitChar (d : Nat) : Char := Char.ofNat (48 + d)

/-- Decimal rendering of a natural number, fuel-driven so that it reduces
in the kernel; mirrors JavaScript `String(n)` for non-negative integers. -/
def decToStrAux : Nat → Nat → JSStr
  | 0, _ => []
  | fuel + 1, n =>
      if n < 10 then [digitChar n]
      else decToStrAux fuel (n / 10) ++ [digitChar (n % 10)]

/-- Decimal rendering of a natural number (JS `String(n)`). -/
def decToStr (n : Nat) : JSStr := decToStrAux (n + 1) n

/-- Numeric value of a digit string (most significant first). -/
def digitsVal (s : JSStr) : Nat :=
  s.foldl (fun a c => a * 10 + (c.toNat - 48)) 0

/-- `isDigit` for our character model. -/
def isDigitCh (c : Char) : Bool := 48 ≤ c.toNat && c.toNat ≤ 57

/-- JavaScript whitespace (only the common ones; sufficient for the model). -/
def isSpaceCh (c : Char) : Bool :=
  c.toNat = 32 || c.toNat = 9 || c.toNat = 10 || c.toNat = 13

/-- Leading-digit parse used by `parseIntJS`; `none` models `NaN`. -/
def parseDigits (s : JSStr) : Option Nat :=
  let d := s.takeWhile isDigitCh
  if d.isEmpty then none else some (digitsVal d)

/-- JavaScript `parseInt(s, 10)`: skip leading whitespace, optional sign,
then the longest prefix of decimal digits; `none` models `NaN`. -/
def parseIntJS (s : JSStr) : Option Int :=
  match s.dropWhile isSpaceCh with
  | [] => none
  | c :: r =>
      if c = '-' then (parseDigits r).map (fun n => -(n : Int))
      else if c = '+' then (parseDigits r).map (fun n => (n : Int))
      else (parseDigits (c :: r)).map (fun n => (n : Int))

/-- The base64url alphabet character for a 6-bit value. -/
def b64Char (v : Nat) : Char :=
  Char.ofNat (if v < 26 then 65 + v else if v < 52 then 71 + v
    else if v < 62 then v - 4 else if v = 62 then 45 else 95)

/-- The 6-bit value of a base64url alphabet character, `none` otherwise. -/
def b64Idx (c : Char) : Option Nat :=
  let n := c.toNat
  if 65 ≤ n ∧ n ≤ 90 then some (n - 65)
  else if 97 ≤ n ∧ n ≤ 122 then some (n - 71)
  else if 48 ≤ n ∧ n ≤ 57 then some (n + 4)
  else if n = 45 then some 62
  else if n = 95 then some 63
  else none

/-- Unpadded base64url encoding of a byte list
(`Buffer.from(bytes).toString('base64url')`). -/
def b64Encode : List Nat → JSStr
  | [] => []
  | [b1] => [b64Char (b1 / 4), b64Char (b1 % 4 * 16)]
  | [b1, b2] =>
      [b64Char (b1 / 4), b64Char (b1 % 4 * 16 + b2 / 16), b64Char (b2 % 16 * 4)]
  | b1 :: b2 :: b3 :: rest =>
      b64Char (b1 / 4) :: b64Char (b1 % 4 * 16 + b2 / 16) ::
      b64Char (b2 % 16 * 4 + b3 / 64) :: b64Char (b3 % 64) :: b64Encode rest
termination_by structural bs => bs

/-- Regroup 6-bit values into bytes the way Node's forgiving base64 decoder
does: dangling bits of a final partial group are ignored, not rejected. -/
def b64Regroup : List Nat → List Nat
  | [] => []
  | [_] => []
  | [v1, v2] => [v1 * 4 + v2 / 16]
  | [v1, v2, v3] => [v1 * 4 + v2 / 16, v2 % 16 * 16 + v3 / 4]
  | v1 :: v2 :: v3 :: v4 :: rest =>
      (v1 * 4 + v2 / 16) :: (v2 % 16 * 16 + v3 / 4) :: (v3 % 4 * 64 + v4) ::
      b64Regroup rest
termination_by structural vs => vs

/-- Node's `Buffer.from(s, 'base64url')`: non-alphabet characters are
skipped and dangling bits are ignored (the decoder never throws). -/
def b64Decode (s : JSStr) : List Nat := b64Regroup (s.filterMap b64Idx)

/-- Worker for `splitOnChar`; `acc` holds the current field reversed. -/
def splitOnCharAux (sep : Char) : JSStr → JSStr → List JSStr
  | [], acc => [acc.reverse]
  | c :: rest, acc =>
      if c = sep then acc.reverse :: splitOnCharAux sep rest []
      else splitOnCharAux sep rest (c :: acc)
termination_by structural s => s

/-- JavaScript `s.split(sep)` for a single-character separator. -/
def splitOnChar (sep : Char) (s : JSStr) : List JSStr :=
  splitOnCharAux sep s []

/-- Lower-case hexadecimal digit, the alphabet of `digest('hex')`. -/
def isHexCh (c : Char) : Bool :=
  (48 ≤ c.toNat && c.toNat ≤ 57) || (97 ≤ c.toNat && c.toNat ≤ 102)

/-- Structural facts about the HMAC helper that are true of
`crypto.createHmac('sha256', secret).update(payload).digest('hex')`:
the digest is a 64-character lower-case hex string.  The hash itself is
treated as an opaque function of the payload. -/
def GoodHmac (hmac : JSStr → JSStr) : Prop :=
  ∀ s, (hmac s).length = 64 ∧ ∀ c ∈ hmac s, isHexCh c = true

/-- src/routes/blob.js lines 600-606 (`createDownloadToken`): the expiry is
`Math.floor(Date.now()/1000) + DOWNLOAD_TOKEN_TTL_SECONDS` with a TTL of
`5 * 60 = 300` seconds; the payload is `path|exp`, the signature an
HMAC-SHA256 hex digest of the payload, and the token the base64url
encoding of `payload|sig`.  `now` is the current epoch time in seconds
and `hmac` the keyed digest (the signing secret is baked into it). -/
def createDownloadToken (hmac : JSStr → JSStr) (now : Nat) (path : JSStr) :
    JSStr :=
  let exp := now + 300
  let payload := path ++ '|' :: decToStr exp
  let sig := hmac payload
  b64Encode (bytesOf (payload ++ '|' :: sig))

/-- src/routes/blob.js lines 608-622 (`verifyDownloadToken`): decode the
token, split on `'|'`, take the first three fields as path, expiry string
and signature (JS array destructuring), fail on empty fields, recompute
the signature over `path|expStr` and compare (`crypto.timingSafeEqual`
throws on length mismatch and returns `false` on content mismatch — both
end in `null`), parse the expiry with `parseInt` and fail when it is
`NaN` or strictly below the current time; otherwise return the path. -/
def verifyFields (hmac : JSStr → JSStr) (now : Nat) (decoded : JSStr) :
    Option JSStr :=
  match splitOnChar '|' decoded with
  | path :: expStr :: sig :: _ =>
      if path = [] ∨ expStr = [] ∨ sig = [] then none
      else if sig ≠ hmac (path ++ '|' :: expStr) then none
      else match parseIntJS expStr with
        | none => none
        | some exp => if exp < (now : Int) then none else some path
  | _ => none

def verifyDownloadToken (hmac : JSStr → JSStr) (now : Nat) (token : JSStr) :
    Option JSStr :=
  verifyFields hmac now (strOfBytes (b64Decode token))

/-- src/routes/blob.js lines 624-627 (`normalizePath`):
`path.replace(/^\/+|\/+$/g, '')` — strip every leading and trailing
slash, keep interior ones. -/
def normalizePath (s : JSStr) : JSStr :=
  ((s.dropWhile (fun c => c = '/')).reverse.dropWhile
    (fun c => c = '/')).reverse

/-- JS `s.padStart(6, '0')`: pad on the left with zeros up to length 6. -/
def pad6 (s : JSStr) : JSStr := List.replicate (6 - s.length) '0' ++ s

/-- src/routes/blob.js line 836 (staging): the block identifier derived
from the client-supplied chunk-index string:
`Buffer.from('chunk-' + String(chunkIndex).padStart(6,'0')).toString('base64')`
(`String` of a string is the identity). -/
def blockIdOfStr (s : JSStr) : JSStr :=
  b64Encode (bytesOf (jstr "chunk-" ++ pad6 s))

/-- src/routes/blob.js lines 791-793 (commit): the block identifier the
commit loop derives from the numeric index `i`. -/
def natBlockId (i : Nat) : JSStr := blockIdOfStr (decToStr i)

/-- The three role booleans the auth middleware attaches to
`req.user.roles`. -/
structure Roles where
  isReader : Bool
  isUploader : Bool
  isAdmin : Bool
deriving DecidableEq

/-- src/routes/blob.js lines 592-597 (`checkPermission`). -/
def checkPermission (roles : Roles) (requiredRole : JSStr) : Bool :=
  if requiredRole = jstr "admin" then roles.isAdmin
  else if requiredRole = jstr "uploader" then
    roles.isAdmin || roles.isUploader
  else if requiredRole = jstr "reader" then
    roles.isAdmin || roles.isUploader || roles.isReader
  else false

/-- JS truthiness of an optional string value (`undefined` and the empty
string are falsy). -/
def truthy : Option JSStr → Bool
  | none => false
  | some s => !s.isEmpty

/-- The durable object store.  Modelled from the spec: the store itself is
an external collaborator (spec §6) not present in the repository; this
follows its contract — committed blobs addressed by key, plus staged,
uncommitted blocks addressed by (key, block identifier). -/
structure Store where
  committed : List (JSStr × List Nat)
  staged : List ((JSStr × JSStr) × List Nat)
deriving DecidableEq

def emptyStore : Store := ⟨[], []⟩

/-- Modelled from the spec: `stageBlock(key, blockId, bytes)` (spec §6)
replaces any previously staged block with the same identifier. -/
def stageBlock (st : Store) (key blockId : JSStr) (bytes : List Nat) :
    Store :=
  { st with staged := aset (key, blockId) bytes st.staged }

/-- Look up the staged blocks for an ordered identifier list; `none` as
soon as one identifier was never staged. -/
def lookupBlocks (st : Store) (key : JSStr) :
    List JSStr → Option (List (List Nat))
  | [] => some []
  | bid :: rest =>
      match alookup (key, bid) st.staged, lookupBlocks st key rest with
      | some b, some bs => some (b :: bs)
      | _, _ => none

/-- Modelled from the spec: `commitBlockList(key, orderedBlockIds, ...)`
(spec §6, §4.3) assembles the object from the staged blocks in list order,
all-or-nothing: if any identifier in the list was never staged the call
fails and no object appears.  A successful commit consumes the staging
area of the key. -/
def commitBlockList (st : Store) (key : JSStr) (ids : List JSStr) :
    Option Store :=
  match lookupBlocks st key ids with
  | none => none
  | some blocks =>
      some { committed := aset key blocks.flatten st.committed,
             staged := st.staged.filter (fun e => !decide (e.1.1 = key)) }

/-- Modelled from the spec: `delete(key)` (spec §6); Azure's
`blobClient.delete()` rejects (BlobNotFound) when the key is absent. -/
def deleteBlob (st : Store) (key : JSStr) : Option Store :=
  match alookup key st.committed with
  | none => none
  | some _ => some { st with committed := aerase key st.committed }

/-- Modelled from the spec: `exists(key)` (spec §6) — existence of a
committed object at exactly this key. -/
def existsBlob (st : Store) (key : JSStr) : Bool :=
  (alookup key st.committed).isSome

/-- HTTP outcome classes used by the routes. -/
inductive Resp
  | ok
  | badRequest
  | forbidden
  | conflict
  | notFound
  | serverError
deriving DecidableEq

/-- Query parameters of `POST /api/files/chunked` (all strings, absent
modelled as `none`). -/
structure StageQuery where
  filename : Option JSStr
  chunkIndex : Option JSStr
  totalChunks : Option JSStr
  folder : Option JSStr

/-- src/routes/blob.js lines 819-830: `targetFolder = folder ?
normalizePath(folder) : ''` and `fullPath = targetFolder ? targetFolder +
'/' + filename : filename`. -/
def mkFullPath (folder : Option JSStr) (filename : JSStr) : JSStr :=
  let targetFolder := match folder with
    | some f => if f.isEmpty then [] else normalizePath f
    | none => []
  if targetFolder.isEmpty then filename else targetFolder ++ '/' :: filename

/-- src/routes/blob.js lines 813-880 (`POST /chunked`): permission check,
then `if (!filename || chunkIndex === undefined || !totalChunks)` → 400
(no store call), otherwise stage the body under the identifier derived
from the chunk-index string.  Only presence/truthiness is validated. -/
def stageChunkRoute (roles : Roles) (q : StageQuery) (body : List Nat)
    (st : Store) : Resp × Store :=
  if !checkPermission roles (jstr "uploader") then (Resp.forbidden, st)
  else match q.filename, q.chunkIndex, q.totalChunks with
    | some fn, some ci, some tc =>
        if fn.isEmpty || tc.isEmpty then (Resp.badRequest, st)
        else
          (Resp.ok, stageBlock st (mkFullPath q.folder fn) (blockIdOfStr ci)
            body)
    | _, _, _ => (Resp.badRequest, st)

/-- JSON body of `POST /api/files/chunked/commit`; `totalChunks` is the
number the route obtains via `parseInt(totalChunks)`. -/
structure CommitBody where
  filename : Option JSStr
  totalChunks : Option Nat
  contentType : Option JSStr
  folder : Option JSStr

/-- src/routes/blob.js lines 772-809 (`POST /chunked/commit`): permission
check, `if (!filename || !totalChunks)` → 400, then rebuild the ordered
block list for indices `0..totalChunks-1` from the indices alone and ask
the store to commit it; a store failure surfaces as 500 with the store
unchanged. -/
def commitRoute (roles : Roles) (b : CommitBody) (st : Store) :
    Resp × Store :=
  if !checkPermission roles (jstr "uploader") then (Resp.forbidden, st)
  else match b.filename, b.totalChunks with
    | some fn, some n =>
        if fn.isEmpty || n == 0 then (Resp.badRequest, st)
        else match commitBlockList st (mkFullPath b.folder fn)
            ((List.range n).map natBlockId) with
          | some st2 => (Resp.ok, st2)
          | none => (Resp.serverError, st)
    | _, _ => (Resp.badRequest, st)

/-- src/routes/blob.js lines 737-751 (`GET /exists/*`): reader check,
then `blobClient.exists()` on the normalized captured path — an
exact-key store lookup. -/
def existsRoute (roles : Roles) (param : JSStr) (st : Store) :
    Resp × Option Bool :=
  if !checkPermission roles (jstr "reader") then (Resp.forbidden, none)
  else (Resp.ok, some (existsBlob st (normalizePath param)))

/-- src/routes/blob.js lines 1091-1108 (`GET /*` download): the captured
path is normalized; access is granted when the bearer roles satisfy
`reader`, or else — when a `dt` query parameter is present — when the
token verifies and its recovered path equals the requested blob path. -/
def tokenGrant (hmac : JSStr → JSStr) (now : Nat) (dt : Option JSStr)
    (blobPath : JSStr) : Bool :=
  match dt with
  | some t =>
      match verifyDownloadToken hmac now t with
      | some p => decide (p = blobPath)
      | none => false
  | none => false

def downloadAuthorized (hmac : JSStr → JSStr) (now : Nat)
    (user : Option Roles) (dt : Option JSStr) (captured : JSStr) : Bool :=
  let blobPath := normalizePath captured
  if (match user with
      | some r => checkPermission r (jstr "reader")
      | none => false) then true
  else tokenGrant hmac now dt blobPath

/-- Permission prologue shared by every route other than the download one
(list line 712, exists line 739, stage line 814, commit line 774, upload
line 1012, move line 927, rename line 966, folder create line 892, folder
delete lines 1133/1152): the decision is `checkPermission` on the role
booleans alone; the `dt` query parameter is accepted but never consulted
by any of these handlers. -/
def roleOnlyGuard (required : JSStr) (roles : Roles) (_dt : Option JSStr) :
    Bool :=
  checkPermission roles required

/-- The Express path match of `router.delete(/^\/(.+)$/i, ...)`
(src/routes/blob.js line 1131): any URL of the form `/<nonempty>`. -/
def matchCatchAll (url : JSStr) : Option JSStr :=
  match url with
  | '/' :: rest => if rest.isEmpty then none else some rest
  | _ => none

/-- The Express path match of `router.delete(/^\/folders\/(.+)$/i, ...)`
(src/routes/blob.js line 1150); the `i` flag only affects the literal
`folders` segment and is immaterial for the claims below. -/
def matchFoldersDelete (url : JSStr) : Option JSStr :=
  if (jstr "/folders/").isPrefixOf url then
    let rest := url.drop 9
    if rest.isEmpty then none else some rest
  else none

/-- src/routes/blob.js lines 1131-1146 (`DELETE /*` catch-all): uploader
check, then a store delete of the raw captured path (not normalized);
a missing blob makes the store call reject → 500, store unchanged. -/
def catchAllDeleteRoute (roles : Roles) (blobPath : JSStr) (st : Store) :
    Resp × Store :=
  if !checkPermission roles (jstr "uploader") then (Resp.forbidden, st)
  else match deleteBlob st blobPath with
    | some st2 => (Resp.ok, st2)
    | none => (Resp.serverError, st)

/-- src/routes/blob.js lines 1150-1185 (`DELETE /folders/*`): uploader
check, normalize, 400 on empty, enumerate keys with prefix
`folderPath + '/'`; 409 Conflict if any of them differs from the folder's
own `.keep` marker, otherwise delete the marker. -/
def foldersDeleteRoute (roles : Roles) (captured : JSStr) (st : Store) :
    Resp × Store :=
  if !checkPermission roles (jstr "uploader") then (Resp.forbidden, st)
  else
    let folderPath := normalizePath captured
    if folderPath.isEmpty then (Resp.badRequest, st)
    else
      let marker := folderPath ++ jstr "/.keep"
      if st.committed.any (fun kv =>
          (folderPath ++ ['/']).isPrefixOf kv.1 && !decide (kv.1 = marker))
      then (Resp.conflict, st)
      else match deleteBlob st marker with
        | some st2 => (Resp.ok, st2)
        | none => (Resp.serverError, st)

/-- Express dispatch for DELETE requests in registration order
(src/routes/blob.js): the catch-all `/^\/(.+)$/i` is registered at line
1131, before the `/^\/folders\/(.+)$/i` route at line 1150, so it is
tried first. -/
def handleDeleteRequest (roles : Roles) (url : JSStr) (st : Store) :
    Resp × Store :=
  match matchCatchAll url with
  | some captured => catchAllDeleteRoute roles captured st
  | none =>
      match matchFoldersDelete url with
      | some captured => foldersDeleteRoute roles captured st
      | none => (Resp.notFound, st)

/-- One element of the flat blob listing consumed by `buildHierarchy`. -/
structure BlobItem where
  name : JSStr
  size : Nat
  created : Nat
deriving DecidableEq

structure FileEntry where
  name : JSStr
  fullPath : JSStr
  size : Nat
  created : Nat
deriving DecidableEq

structure FolderEntry where
  name : JSStr
  path : JSStr
  children : Nat
deriving DecidableEq

/-- src/routes/blob.js line 667: `.keep` marker detection:
`normalized.endsWith('/.keep') || normalized === '.keep'`. -/
def isKeepName (n : JSStr) : Bool :=
  (jstr "/.keep").isSuffixOf n || decide (n = jstr ".keep")

/-- `folders.set(sub, {children: 0})` when absent followed by
`folders.get(sub).children++` (src/routes/blob.js lines 681-690); the JS
`Map` keeps first-insertion order, so a new folder is appended at the
end with one child. -/
def bumpFolder (folderPath sub : JSStr) :
    List FolderEntry → List FolderEntry
  | [] => [{ name := sub,
             path := if folderPath.isEmpty then sub
               else folderPath ++ '/' :: sub,
             children := 1 }]
  | f :: fs =>
      if f.name = sub then { f with children := f.children + 1 } :: fs
      else f :: bumpFolder folderPath sub fs

/-- One iteration of the `for (const blob of blobs)` loop of
`buildHierarchy` (src/routes/blob.js lines 663-701). -/
def hierStep (folderPath : JSStr)
    (acc : List FolderEntry × List FileEntry) (blob : BlobItem) :
    List FolderEntry × List FileEntry :=
  let normalized := normalizePath blob.name
  if isKeepName normalized then acc
  else if !folderPath.isEmpty &&
      !(folderPath ++ ['/']).isPrefixOf normalized then acc
  else
    let relativePath := if folderPath.isEmpty then normalized
      else normalized.drop (folderPath.length + 1)
    if relativePath.contains '/' then
      (bumpFolder folderPath
        (relativePath.takeWhile (fun c => !decide (c = '/'))) acc.1, acc.2)
    else
      (acc.1,
        acc.2 ++ [FileEntry.mk relativePath normalized blob.size blob.created])

/-- src/routes/blob.js lines 659-707 (`buildHierarchy`): fold the flat
blob list into folder aggregates and file entries for one level. -/
def buildHierarchy (blobs : List BlobItem) (folderPath : JSStr) :
    List FolderEntry × List FileEntry :=
  blobs.foldl (hierStep folderPath) ([], [])

/-- The keys `buildHierarchy` buckets at all: non-marker keys inside the
queried folder (at the root, every non-marker key). -/
def eligibleBlob (folderPath : JSStr) (blob : BlobItem) : Bool :=
  let normalized := normalizePath blob.name
  !isKeepName normalized &&
    (folderPath.isEmpty || (folderPath ++ ['/']).isPrefixOf normalized)

/-- A key that is a descendant of the queried folder (the claim's notion,
which does not exclude `.keep` markers). -/
def descendantBlob (folderPath : JSStr) (blob : BlobItem) : Bool :=
  folderPath.isEmpty ||
    (folderPath ++ ['/']).isPrefixOf (normalizePath blob.name)

def sumChildren (fs : List FolderEntry) : Nat :=
  (fs.map FolderEntry.children).sum

/-- Stage, in arrival order `order`, the chunks `chunks i` for the target
filename `fn` (no folder), each staging call carrying the canonical
decimal strings of its index and of the chunk total. -/
def stageAll (roles : Roles) (fn : JSStr) (total : Nat)
    (chunks : Nat → List Nat) (order : List Nat) (st : Store) : Store :=
  order.foldl (fun s i =>
    (stageChunkRoute roles
      ⟨some fn, some (decToStr i), some (decToStr total), none⟩
      (chunks i) s).2) st

/-- Role set with only the Uploader bit, used by concrete witnesses. -/
def uploaderOnly : Roles := ⟨false, true, false⟩

/-- The spec's concrete three-chunk scenario: chunk 0 = "A", 1 = "B",
2 = "C". -/
def abcChunks : Nat → List Nat := fun i =>
  if i = 0 then bytesOf (jstr "A")
  else if i = 1 then bytesOf (jstr "B")
  else bytesOf (jstr "C")

/-- A concrete hash stand-in used by witnesses and counterexamples: it has
the digest shape `GoodHmac` demands (64 lower-case hex characters). -/
def hmac0 : JSStr → JSStr := fun _ => List.replicate 64 '0'

def isPow2Byte (n : Nat) : Bool :=
  n = 1 || n = 2 || n = 4 || n = 8 || n = 16 || n = 32 || n = 64 || n = 128

/-- Two strings differ by a single bit flip in one character's code. -/
def oneBitMutation : JSStr → JSStr → Bool
  | [], [] => false
  | a :: as, b :: bs =>
      if a = b then oneBitMutation as bs
      else isPow2Byte (Nat.xor a.toNat b.toNat) && decide (as = bs)
  | _, _ => false
termination_by structural s => s

/-- Replace the final character of a string. -/
def mutLastTo (c : Char) (s : JSStr) : JSStr := s.dropLast ++ [c]

/-- Presence of the three stage parameters with JS truthiness (the only
validation the stage route performs). -/
def presenceOk (q : StageQuery) : Prop :=
  truthy q.filename = true ∧ q.chunkIndex.isSome = true ∧
    truthy q.totalChunks = true

/-- The claim's notion of a valid chunk index: a non-negative integer
strictly below the chunk total (numeric values per JS `parseInt`). -/
def chunkIndexValid (q : StageQuery) : Prop :=
  ∃ ci tc, q.chunkIndex = some ci ∧ q.totalChunks = some tc ∧
    ∃ i t : Int, parseIntJS ci = some i ∧ parseIntJS tc = some t ∧
      0 ≤ i ∧ i < t

theorem strOfBytes_bytesOf (s : JSStr) : strOfBytes (bytesOf s) = s := by
  induction s with
  | nil => rfl
  | cons c cs ih =>
      simp only [bytesOf, strOfBytes, List.map_cons, List.map_map] at *
      simpa [Char.ofNat_toNat] using ih

theorem alookup_aset_same {κ v : Type} [DecidableEq κ] (k : κ) (x : v)
    (l : List (κ × v)) : alookup k (aset k x l) = some x := by
  simp [aset, alookup]

theorem alookup_filter_ne {κ v : Type} [DecidableEq κ] (k k' : κ)
    (l : List (κ × v)) (h : k' ≠ k) :
    alookup k' (l.filter (fun p => !decide (p.1 = k))) = alookup k' l := by
  induction l with
  | nil => rfl
  | cons p rest ih =>
      cases p with
      | mk a b =>
        by_cases hp : a = k
        · have hne : a ≠ k' := by rw [hp]; exact fun hh => h hh.symm
          simp only [List.filter_cons, decide_eq_true_eq]
          rw [if_neg (by simp [hp])]
          rw [ih]
          simp [alookup, hne]
        · simp only [List.filter_cons]
          rw [if_pos (by simp [hp])]
          simp only [alookup]
          by_cases hk' : a = k'
          · simp [hk']
          · simp [hk', ih]

theorem alookup_aset_other {κ v : Type} [DecidableEq κ] (k k' : κ) (x : v)
    (l : List (κ × v)) (h : k' ≠ k) :
    alookup k' (aset k x l) = alookup k' l := by
  simp only [aset, alookup]
  rw [if_neg (fun hh => h hh.symm)]
  exact alookup_filter_ne k k' l h

/-- Membership of some value at a key follows from a successful lookup. -/
theorem alookup_mem {κ v : Type} [DecidableEq κ] (k : κ) (x : v)
    (l : List (κ × v)) (h : alookup k l = some x) : (k, x) ∈ l := by
  induction l with
  | nil => simp [alookup] at h
  | cons p rest ih =>
      cases p with
      | mk a b =>
        by_cases ha : a = k
        · subst ha
          simp [alookup] at h
          subst h
          exact List.mem_cons_self _ _
        · simp [alookup, ha] at h
          exact List.mem_cons_of_mem _ (ih h)

/-- A key present in the list makes the lookup succeed. -/
theorem alookup_isSome_of_mem {κ v : Type} [DecidableEq κ] (k : κ) (x : v)
    (l : List (κ × v)) (h : (k, x) ∈ l) : (alookup k l).isSome := by
  induction l with
  | nil => cases h
  | cons p rest ih =>
      cases p with
      | mk a b =>
        by_cases ha : a = k
        · simp [alookup, ha]
        · rcases List.mem_cons.mp h with heq | hm
          · cases heq; exact absurd rfl ha
          · simp [alookup, ha]; exact ih hm

theorem digitChar_toNat (d : Nat) (h : d < 10) :
    (digitChar d).toNat = 48 + d := by
  interval_cases d <;> decide

theorem digitsVal_append_digit (s : JSStr) (c : Char) :
    digitsVal (s ++ [c]) = digitsVal s * 10 + (c.toNat - 48) := by
  simp [digitsVal, List.foldl_append]

theorem digitsVal_go (s : JSStr) (a : Nat) :
    s.foldl (fun a c => a * 10 + (c.toNat - 48)) a =
      a * 10 ^ s.length + digitsVal s := by
  induction s generalizing a with
  | nil => simp [digitsVal]
  | cons c cs ih =>
      simp only [List.foldl_cons, digitsVal, List.length_cons]
      rw [ih, ih (0 * 10 + (c.toNat - 48))]
      ring

theorem digitsVal_decToStrAux (fuel n : Nat) (h : n < fuel) :
    digitsVal (decToStrAux fuel n) = n := by
  induction fuel generalizing n with
  | zero => omega
  | succ f ih =>
      simp only [decToStrAux]
      by_cases hn : n < 10
      · rw [if_pos hn]
        simp [digitsVal, digitChar_toNat n hn]
      · rw [if_neg hn, digitsVal_append_digit, ih (n / 10) (by omega),
          digitChar_toNat (n % 10) (by omega)]
        omega

/-- Parsing the decimal rendering recovers the number. -/
theorem digitsVal_decToStr (n : Nat) : digitsVal (decToStr n) = n :=
  digitsVal_decToStrAux (n + 1) n (Nat.lt_succ_self n)

theorem decToStrAux_ne_nil (fuel n : Nat) (h : n < fuel) :
    decToStrAux fuel n ≠ [] := by
  cases fuel with
  | zero => omega
  | succ f =>
      simp only [decToStrAux]
      by_cases hn : n < 10 <;> simp [hn]

theorem decToStr_ne_nil (n : Nat) : decToStr n ≠ [] :=
  decToStrAux_ne_nil (n + 1) n (Nat.lt_succ_self n)

theorem decToStrAux_all_digits (fuel n : Nat) (h : n < fuel) :
    ∀ c ∈ decToStrAux fuel n, isDigitCh c = true := by
  induction fuel generalizing n with
  | zero => omega
  | succ f ih =>
      simp only [decToStrAux]
      by_cases hn : n < 10
      · simp only [hn, if_pos]
        intro c hc
        simp only [List.mem_singleton] at hc
        subst hc
        simp [isDigitCh, digitChar_toNat n hn]
        omega
      · simp only [hn, if_neg, not_false_iff]
        intro c hc
        rcases List.mem_append.mp hc with h1 | h2
        · exact ih (n / 10) (by omega) c h1
        · simp only [List.mem_singleton] at h2
          subst h2
          simp [isDigitCh, digitChar_toNat (n % 10) (by omega)]
          omega

theorem decToStr_all_digits (n : Nat) :
    ∀ c ∈ decToStr n, isDigitCh c = true :=
  decToStrAux_all_digits (n + 1) n (Nat.lt_succ_self n)

theorem takeWhile_all_true (s : JSStr) (p : Char → Bool)
    (h : ∀ c ∈ s, p c = true) : s.takeWhile p = s := by
  induction s with
  | nil => rfl
  | cons c cs ih =>
      simp only [List.takeWhile_cons, h c (List.mem_cons_self _ _)]
      simp [ih (fun x hx => h x (List.mem_cons_of_mem _ hx))]

theorem dropWhile_cons_false (c : Char) (cs : JSStr) (p : Char → Bool)
    (h : p c = false) : (c :: cs).dropWhile p = c :: cs := by
  simp [List.dropWhile_cons, h]

/-- `parseInt` is a left inverse of decimal rendering. -/
theorem parseIntJS_decToStr (n : Nat) :
    parseIntJS (decToStr n) = some ((n : Int)) := by
  have hd := decToStr_all_digits n
  have hne := decToStr_ne_nil n
  cases hs : decToStr n with
  | nil => exact absurd hs hne
  | cons c cs =>
      have hcd : isDigitCh c = true := by
        rw [hs] at hd; exact hd c (List.mem_cons_self _ _)
      have hcs : isSpaceCh c = false := by
        simp only [isDigitCh, Bool.and_eq_true, decide_eq_true_eq] at hcd
        simp only [isSpaceCh, Bool.or_eq_false_iff, decide_eq_false_iff_not]
        omega
      have hcm : c ≠ '-' := by
        intro hc; subst hc
        simp only [isDigitCh] at hcd
        revert hcd; decide
      have hcp : c ≠ '+' := by
        intro hc; subst hc
        simp only [isDigitCh] at hcd
        revert hcd; decide
      have hdrop : (c :: cs).dropWhile isSpaceCh = c :: cs :=
        dropWhile_cons_false c cs isSpaceCh hcs
      have htake : (c :: cs).takeWhile isDigitCh = c :: cs := by
        apply takeWhile_all_true
        rw [← hs]; exact hd
      have hmain : parseDigits (c :: cs) = some (digitsVal (c :: cs)) := by
        simp [parseDigits, htake]
      simp only [parseIntJS, hdrop, if_neg hcm, if_neg hcp, hmain,
        Option.map_some']
      rw [← hs, digitsVal_decToStr]
      simp

theorem b64Idx_b64Char : ∀ v < 64, b64Idx (b64Char v) = some v := by decide

theorem filterMap_b64_cons (v : Nat) (hv : v < 64) (s : JSStr) :
    (b64Char v :: s).filterMap b64Idx = v :: s.filterMap b64Idx := by
  simp [List.filterMap_cons, b64Idx_b64Char v hv]

/-- Round trip: decoding an encoded byte list recovers it exactly. -/
theorem b64Decode_b64Encode (bs : List Nat) (h : ∀ b ∈ bs, b < 256) :
    b64Decode (b64Encode bs) = bs := by
  induction bs using b64Encode.induct with
  | case1 => rfl
  | case2 b1 =>
      have hb1 : b1 < 256 := h b1 (by simp)
      simp only [b64Encode, b64Decode]
      rw [filterMap_b64_cons _ (by omega), filterMap_b64_cons _ (by omega)]
      simp only [List.filterMap_nil, b64Regroup]
      congr 1
      omega
  | case3 b1 b2 =>
      have hb1 : b1 < 256 := h b1 (by simp)
      have hb2 : b2 < 256 := h b2 (by simp)
      simp only [b64Encode, b64Decode]
      rw [filterMap_b64_cons _ (by omega), filterMap_b64_cons _ (by omega),
        filterMap_b64_cons _ (by omega)]
      simp only [List.filterMap_nil, b64Regroup]
      congr 1
      · omega
      · congr 1
        omega
  | case4 b1 b2 b3 rest ih =>
      have hb1 : b1 < 256 := h b1 (by simp)
      have hb2 : b2 < 256 := h b2 (by simp)
      have hb3 : b3 < 256 := h b3 (by simp)
      have hrest : ∀ b ∈ rest, b < 256 := by
        intro b hb; exact h b (by simp [hb])
      simp only [b64Encode, b64Decode]
      rw [filterMap_b64_cons _ (by omega), filterMap_b64_cons _ (by omega),
        filterMap_b64_cons _ (by omega), filterMap_b64_cons _ (by omega)]
      have hregroup :
          b64Regroup (b1 / 4 :: (b1 % 4 * 16 + b2 / 16) ::
            (b2 % 16 * 4 + b3 / 64) :: b3 % 64 ::
            (b64Encode rest).filterMap b64Idx) =
          (b1 / 4 * 4 + (b1 % 4 * 16 + b2 / 16) / 16) ::
          ((b1 % 4 * 16 + b2 / 16) % 16 * 16 + (b2 % 16 * 4 + b3 / 64) / 4) ::
          ((b2 % 16 * 4 + b3 / 64) % 4 * 64 + b3 % 64) ::
          b64Regroup ((b64Encode rest).filterMap b64Idx) := rfl
      rw [hregroup]
      have ih' := ih hrest
      simp only [b64Decode] at ih'
      rw [ih']
      congr 1
      · omega
      · congr 1
        · omega
        · congr 1
          omega

/-- Injectivity of the encoder on genuine byte lists. -/
theorem b64Encode_inj (xs ys : List Nat) (hx : ∀ b ∈ xs, b < 256)
    (hy : ∀ b ∈ ys, b < 256) (h : b64Encode xs = b64Encode ys) : xs = ys := by
  have := congrArg b64Decode h
  rwa [b64Decode_b64Encode xs hx, b64Decode_b64Encode ys hy] at this

theorem bytesOf_inj (s t : JSStr) (h : bytesOf s = bytesOf t) : s = t := by
  have := congrArg strOfBytes h
  rwa [strOfBytes_bytesOf, strOfBytes_bytesOf] at this

theorem splitOnCharAux_no_sep (sep : Char) (s acc : JSStr)
    (hacc : sep ∉ acc) : ∀ p ∈ splitOnCharAux sep s acc, sep ∉ p := by
  induction s generalizing acc with
  | nil =>
      intro p hp
      simp only [splitOnCharAux, List.mem_singleton] at hp
      subst hp
      simpa using hacc
  | cons c rest ih =>
      intro p hp
      simp only [splitOnCharAux] at hp
      by_cases hc : c = sep
      · rw [if_pos hc] at hp
        rcases List.mem_cons.mp hp with h1 | h2
        · subst h1; simpa using hacc
        · exact ih [] (by simp) p h2
      · rw [if_neg hc] at hp
        refine ih (c :: acc) ?_ p hp
        intro hmem
        rcases List.mem_cons.mp hmem with h1 | h2
        · exact hc h1.symm
        · exact hacc h2

/-- Every field produced by `split` is free of the separator. -/
theorem splitOnChar_no_sep (sep : Char) (s : JSStr) :
    ∀ p ∈ splitOnChar sep s, sep ∉ p :=
  splitOnCharAux_no_sep sep s [] (by simp)

theorem splitOnCharAux_append_sep (sep : Char) (a rest acc : JSStr)
    (ha : sep ∉ a) :
    splitOnCharAux sep (a ++ sep :: rest) acc =
      (acc.reverse ++ a) :: splitOnCharAux sep rest [] := by
  induction a generalizing acc with
  | nil => simp [splitOnCharAux]
  | cons c a' ih =>
      have hc : c ≠ sep := fun h => ha (by simp [h])
      have ha' : sep ∉ a' := fun h => ha (by simp [h])
      rw [List.cons_append, splitOnCharAux, if_neg hc, ih (c :: acc) ha']
      simp

theorem splitOnCharAux_no_sep_whole (sep : Char) (a acc : JSStr)
    (ha : sep ∉ a) :
    splitOnCharAux sep a acc = [acc.reverse ++ a] := by
  induction a generalizing acc with
  | nil => simp [splitOnCharAux]
  | cons c a' ih =>
      have hc : c ≠ sep := fun h => ha (by simp [h])
      have ha' : sep ∉ a' := fun h => ha (by simp [h])
      rw [splitOnCharAux, if_neg hc, ih (c :: acc) ha']
      simp

/-- Splitting `a ++ sep :: rest` with `sep ∉ a` peels off the field `a`. -/
theorem splitOnChar_append_sep (sep : Char) (a rest : JSStr) (ha : sep ∉ a) :
    splitOnChar sep (a ++ sep :: rest) = a :: splitOnChar sep rest := by
  simp [splitOnChar, splitOnCharAux_append_sep sep a rest [] ha]

theorem splitOnChar_no_sep_whole (sep : Char) (a : JSStr) (ha : sep ∉ a) :
    splitOnChar sep a = [a] := by
  simp [splitOnChar, splitOnCharAux_no_sep_whole sep a [] ha]

theorem hexCh_lt_128 (c : Char) (h : isHexCh c = true) : c.toNat < 128 := by
  simp only [isHexCh, Bool.or_eq_true, Bool.and_eq_true, decide_eq_true_eq] at h
  omega

theorem hexCh_ne_pipe (c : Char) (h : isHexCh c = true) : c ≠ '|' := by
  intro hc
  subst hc
  simp only [isHexCh] at h
  revert h
  decide

theorem digitCh_ne_pipe (c : Char) (h : isDigitCh c = true) : c ≠ '|' := by
  intro hc
  subst hc
  simp only [isDigitCh] at h
  revert h
  decide

theorem digitCh_lt_128 (c : Char) (h : isDigitCh c = true) : c.toNat < 128 := by
  simp only [isDigitCh, Bool.and_eq_true, decide_eq_true_eq] at h
  omega

theorem goodHmac_ne_nil (hmac : JSStr → JSStr) (hg : GoodHmac hmac)
    (s : JSStr) : hmac s ≠ [] := by
  intro h
  have := (hg s).1
  rw [h] at this
  simp at this

theorem goodHmac_no_pipe (hmac : JSStr → JSStr) (hg : GoodHmac hmac)
    (s : JSStr) : '|' ∉ hmac s :=
  fun hm => hexCh_ne_pipe _ ((hg s).2 _ hm) rfl

theorem decToStr_no_pipe (n : Nat) : '|' ∉ decToStr n :=
  fun hm => digitCh_ne_pipe _ (decToStr_all_digits n _ hm) rfl

/-- Full computation of `verify` on a freshly issued token: it yields the
embedded path unless the clock has passed the embedded expiry. -/
theorem verify_createDownloadToken (hmac : JSStr → JSStr)
    (hg : GoodHmac hmac) (now t : Nat) (path : JSStr) (hne : path ≠ [])
    (hpipe : '|' ∉ path) (hascii : ∀ c ∈ path, c.toNat < 128) :
    verifyDownloadToken hmac t (createDownloadToken hmac now path) =
      if now + 300 < t then none else some path := by
  have hsig_len := (hg (path ++ '|' :: decToStr (now + 300))).1
  have hsig_hex := (hg (path ++ '|' :: decToStr (now + 300))).2
  have hsig_pipe : '|' ∉ hmac (path ++ '|' :: decToStr (now + 300)) :=
    goodHmac_no_pipe hmac hg _
  have hsig_ne : hmac (path ++ '|' :: decToStr (now + 300)) ≠ [] :=
    goodHmac_ne_nil hmac hg _
  have hfull_lt : ∀ b ∈ bytesOf ((path ++ '|' :: decToStr (now + 300)) ++
      '|' :: hmac (path ++ '|' :: decToStr (now + 300))), b < 256 := by
    intro b hb
    simp only [bytesOf, List.mem_map] at hb
    obtain ⟨c, hc, rfl⟩ := hb
    simp only [List.mem_append, List.mem_cons] at hc
    rcases hc with (hc | hc | hc) | (hc | hc)
    · have := hascii c hc; omega
    · subst hc; decide
    · have := digitCh_lt_128 c (decToStr_all_digits _ c hc); omega
    · subst hc; decide
    · have := hexCh_lt_128 c (hsig_hex c hc); omega
  have htok : createDownloadToken hmac now path =
      b64Encode (bytesOf ((path ++ '|' :: decToStr (now + 300)) ++
        '|' :: hmac (path ++ '|' :: decToStr (now + 300)))) := rfl
  have hdecoded : strOfBytes (b64Decode (createDownloadToken hmac now path)) =
      (path ++ '|' :: decToStr (now + 300)) ++
        '|' :: hmac (path ++ '|' :: decToStr (now + 300)) := by
    rw [htok, b64Decode_b64Encode _ hfull_lt, strOfBytes_bytesOf]
  have hassoc : (path ++ '|' :: decToStr (now + 300)) ++
      '|' :: hmac (path ++ '|' :: decToStr (now + 300)) =
      path ++ '|' :: (decToStr (now + 300) ++
        '|' :: hmac (path ++ '|' :: decToStr (now + 300))) := by
    simp [List.append_assoc]
  have hsplit : splitOnChar '|' ((path ++ '|' :: decToStr (now + 300)) ++
      '|' :: hmac (path ++ '|' :: decToStr (now + 300))) =
      [path, decToStr (now + 300),
        hmac (path ++ '|' :: decToStr (now + 300))] := by
    rw [hassoc, splitOnChar_append_sep '|' path _ hpipe,
      splitOnChar_append_sep '|' _ _ (decToStr_no_pipe (now + 300)),
      splitOnChar_no_sep_whole '|' _ hsig_pipe]
  have hnonempty : ¬(path = [] ∨ decToStr (now + 300) = [] ∨
      hmac (path ++ '|' :: decToStr (now + 300)) = []) := by
    simp [hne, decToStr_ne_nil, hsig_ne]
  simp only [verifyDownloadToken]
  rw [hdecoded]
  simp only [verifyFields]
  rw [hsplit]
  simp only [if_neg hnonempty]
  rw [if_neg (by simp)]
  rw [parseIntJS_decToStr]
  by_cases ht : now + 300 < t
  · simp only [ht, if_true]
    rw [if_pos (by push_cast; omega)]
  · simp only [ht, if_false]
    rw [if_neg (by push_cast; omega)]

/-- A successful verification returns the first `'|'`-separated field of
the decoded payload. -/
theorem verifyFields_some_head (hmac : JSStr → JSStr) (now : Nat)
    (decoded p : JSStr) (h : verifyFields hmac now decoded = some p) :
    ∃ rest, splitOnChar '|' decoded = p :: rest := by
  rcases hs : splitOnChar '|' decoded with _ | ⟨path, _ | ⟨expStr, _ | ⟨sig, rest⟩⟩⟩ <;>
    simp only [verifyFields, hs] at h
  · cases h
  · cases h
  · cases h
  · by_cases h1 : path = [] ∨ expStr = [] ∨ sig = []
    · rw [if_pos h1] at h; cases h
    · rw [if_neg h1] at h
      by_cases h2 : sig ≠ hmac (path ++ '|' :: expStr)
      · rw [if_pos h2] at h; cases h
      · rw [if_neg h2] at h
        rcases hp : parseIntJS expStr with _ | exp <;> simp only [hp] at h
        · cases h
        · by_cases h3 : exp < (now : Int)
          · rw [if_pos h3] at h; cases h
          · rw [if_neg h3] at h
            simp only [Option.some.injEq] at h
            exact ⟨expStr :: sig :: rest, by rw [h]⟩

/-- Whatever path `verify` returns is free of the `'|'` delimiter. -/
theorem verify_some_no_pipe (hmac : JSStr → JSStr) (now : Nat)
    (token p : JSStr) (h : verifyDownloadToken hmac now token = some p) :
    '|' ∉ p := by
  simp only [verifyDownloadToken] at h
  obtain ⟨rest, hs⟩ := verifyFields_some_head hmac now _ p h
  exact splitOnChar_no_sep '|' _ p (by rw [hs]; exact List.mem_cons_self _ _)

theorem digitsVal_replicate_zero (k : Nat) (s : JSStr) :
    digitsVal (List.replicate k '0' ++ s) = digitsVal s := by
  induction k with
  | zero => simp
  | succ k ih =>
      simp only [List.replicate_succ, List.cons_append, digitsVal,
        List.foldl_cons]
      have h0 : (0 * 10 + ('0'.toNat - 48)) = 0 := by decide
      rw [h0]
      exact ih

theorem digitsVal_pad6 (s : JSStr) : digitsVal (pad6 s) = digitsVal s :=
  digitsVal_replicate_zero _ s

theorem chunk_lit_bytes_lt : ∀ c ∈ jstr "chunk-", c.toNat < 256 := by decide

theorem blockId_bytes_lt (s : JSStr) (hdig : ∀ c ∈ s, isDigitCh c = true) :
    ∀ b ∈ bytesOf (jstr "chunk-" ++ pad6 s), b < 256 := by
  intro b hb
  simp only [bytesOf, List.mem_map] at hb
  obtain ⟨c, hc, rfl⟩ := hb
  rcases List.mem_append.mp hc with h1 | h2
  · exact chunk_lit_bytes_lt c h1
  · rcases List.mem_append.mp h2 with h3 | h4
    · have := List.eq_of_mem_replicate h3
      subst this
      decide
    · have := digitCh_lt_128 c (hdig c h4)
      omega

/-- The commit-side block identifier is injective in the chunk index:
staging and committing agree on which staged block index `i` denotes. -/
theorem natBlockId_inj (i j : Nat) (h : natBlockId i = natBlockId j) :
    i = j := by
  have hi := blockId_bytes_lt (decToStr i) (decToStr_all_digits i)
  have hj := blockId_bytes_lt (decToStr j) (decToStr_all_digits j)
  have hb := b64Encode_inj _ _ hi hj h
  have hs := bytesOf_inj _ _ hb
  have hp : pad6 (decToStr i) = pad6 (decToStr j) :=
    List.append_cancel_left hs
  have := congrArg digitsVal hp
  rwa [digitsVal_pad6, digitsVal_pad6, digitsVal_decToStr,
    digitsVal_decToStr] at this

theorem mkFullPath_none (fn : JSStr) : mkFullPath none fn = fn := rfl

theorem stageChunkRoute_canonical (roles : Roles)
    (hrole : checkPermission roles (jstr "uploader") = true)
    (fn : JSStr) (hfn : fn ≠ []) (total i : Nat) (body : List Nat)
    (st : Store) :
    stageChunkRoute roles
      ⟨some fn, some (decToStr i), some (decToStr total), none⟩ body st =
      (Resp.ok, stageBlock st fn (natBlockId i) body) := by
  have hfe : fn.isEmpty = false := by
    cases fn with
    | nil => exact absurd rfl hfn
    | cons a l => rfl
  have hte : (decToStr total).isEmpty = false := by
    cases hd : decToStr total with
    | nil => exact absurd hd (decToStr_ne_nil total)
    | cons a l => rfl
  simp only [stageChunkRoute, hrole, Bool.not_true, Bool.false_eq_true,
    if_false, hfe, hte, Bool.or_self, mkFullPath_none]
  rfl

theorem stageAll_not_mem (roles : Roles)
    (hrole : checkPermission roles (jstr "uploader") = true)
    (fn : JSStr) (hfn : fn ≠ []) (total : Nat) (chunks : Nat → List Nat)
    (order : List Nat) (st : Store) (i : Nat) (h : i ∉ order) :
    alookup (fn, natBlockId i)
        (stageAll roles fn total chunks order st).staged =
      alookup (fn, natBlockId i) st.staged := by
  induction order generalizing st with
  | nil => rfl
  | cons j rest ih =>
      have hij : i ≠ j := fun hh => h (by simp [hh])
      have hrest : i ∉ rest := fun hh => h (by simp [hh])
      simp only [stageAll, List.foldl_cons]
      rw [stageChunkRoute_canonical roles hrole fn hfn total j (chunks j) st]
      have hstep := ih (stageBlock st fn (natBlockId j) (chunks j)) hrest
      simp only [stageAll] at hstep
      rw [hstep]
      simp only [stageBlock]
      exact alookup_aset_other _ _ _ _
        (fun hh => hij (natBlockId_inj i j (congrArg Prod.snd hh)))

theorem stageAll_mem (roles : Roles)
    (hrole : checkPermission roles (jstr "uploader") = true)
    (fn : JSStr) (hfn : fn ≠ []) (total : Nat) (chunks : Nat → List Nat)
    (order : List Nat) (st : Store) (i : Nat) (h : i ∈ order) :
    alookup (fn, natBlockId i)
        (stageAll roles fn total chunks order st).staged =
      some (chunks i) := by
  induction order generalizing st with
  | nil => cases h
  | cons j rest ih =>
      simp only [stageAll, List.foldl_cons]
      rw [stageChunkRoute_canonical roles hrole fn hfn total j (chunks j) st]
      by_cases hr : i ∈ rest
      · exact ih _ hr
      · have hij : i = j := by
          rcases List.mem_cons.mp h with h1 | h2
          · exact h1
          · exact absurd h2 hr
        subst hij
        have hstep := stageAll_not_mem roles hrole fn hfn total chunks rest
          (stageBlock st fn (natBlockId i) (chunks i)) i hr
        simp only [stageAll] at hstep
        rw [hstep]
        simp only [stageBlock]
        exact alookup_aset_same _ _ _

theorem lookupBlocks_map (st : Store) (key : JSStr) (g : Nat → JSStr)
    (f : Nat → List Nat) (idxs : List Nat)
    (h : ∀ i ∈ idxs, alookup (key, g i) st.staged = some (f i)) :
    lookupBlocks st key (idxs.map g) = some (idxs.map f) := by
  induction idxs with
  | nil => rfl
  | cons a rest ih =>
      simp only [List.map_cons, lookupBlocks]
      rw [h a (List.mem_cons_self _ _),
        ih (fun i hi => h i (List.mem_cons_of_mem _ hi))]

theorem lookupBlocks_missing (st : Store) (key : JSStr) (ids : List JSStr)
    (id : JSStr) (hid : id ∈ ids)
    (h : alookup (key, id) st.staged = none) :
    lookupBlocks st key ids = none := by
  induction ids with
  | nil => cases hid
  | cons a rest ih =>
      rcases List.mem_cons.mp hid with h1 | h2
      · subst h1
        cases hx : lookupBlocks st key rest <;> simp [lookupBlocks, h, hx]
      · cases ha : alookup (key, a) st.staged <;>
          simp [lookupBlocks, ha, ih h2]

/-- C1: staging every index `0..N-1` with its chunk bytes (in any arrival
order, duplicates allowed) and then committing with `totalChunks = N`
succeeds and commits exactly the byte-for-byte concatenation of the
chunks in index order, because staging and commit derive the same block
identifier from the index alone (`natBlockId_inj`). -/
theorem chunked_commit_concatenates_in_index_order (roles : Roles)
    (hrole : checkPermission roles (jstr "uploader") = true)
    (fn : JSStr) (hfn : fn ≠ []) (N : Nat) (hN : 0 < N)
    (chunks : Nat → List Nat) (order : List Nat)
    (horder : ∀ i < N, i ∈ order) (st : Store) :
    ∃ st2,
      commitRoute roles ⟨some fn, some N, none, none⟩
          (stageAll roles fn N chunks order st) = (Resp.ok, st2) ∧
      alookup fn st2.committed =
        some ((List.range N).map chunks).flatten := by
  have hfe : fn.isEmpty = false := by
    cases fn with
    | nil => exact absurd rfl hfn
    | cons a l => rfl
  have hN0 : (N == 0) = false := by
    simp only [beq_eq_false_iff_ne, ne_eq]
    omega
  have hlookup : lookupBlocks (stageAll roles fn N chunks order st) fn
      ((List.range N).map natBlockId) = some ((List.range N).map chunks) := by
    apply lookupBlocks_map
    intro i hi
    exact stageAll_mem roles hrole fn hfn N chunks order st i
      (horder i (List.mem_range.mp hi))
  have hcommit : commitRoute roles ⟨some fn, some N, none, none⟩
      (stageAll roles fn N chunks order st) =
      (Resp.ok,
        Store.mk
          (aset fn ((List.range N).map chunks).flatten
            (stageAll roles fn N chunks order st).committed)
          ((stageAll roles fn N chunks order st).staged.filter
            (fun e => !decide (e.1.1 = fn)))) := by
    simp only [commitRoute, hrole, Bool.not_true, Bool.false_eq_true,
      if_false, hfe, hN0, Bool.or_self, mkFullPath_none, commitBlockList,
      hlookup]
  exact ⟨_, hcommit, alookup_aset_same fn _ _⟩

/-- C1 witness: stage chunk 1 = "B", then chunk 0 = "A", then chunk 2 =
"C" and commit with totalChunks = 3; the committed object is "ABC". -/
theorem chunked_commit_concatenates_in_index_order_witness :
    checkPermission uploaderOnly (jstr "uploader") = true ∧
    jstr "f" ≠ [] ∧ 0 < 3 ∧ (∀ i < 3, i ∈ [1, 0, 2]) ∧
    ∃ st2,
      commitRoute uploaderOnly ⟨some (jstr "f"), some 3, none, none⟩
          (stageAll uploaderOnly (jstr "f") 3 abcChunks [1, 0, 2]
            emptyStore) = (Resp.ok, st2) ∧
      alookup (jstr "f") st2.committed = some (bytesOf (jstr "ABC")) := by
  refine ⟨by decide, by decide, by decide, by decide, ?_⟩
  obtain ⟨st2, h1, h2⟩ := chunked_commit_concatenates_in_index_order
    uploaderOnly (by decide) (jstr "f") (by decide) 3 (by decide)
    abcChunks [1, 0, 2] (by decide) emptyStore
  exact ⟨st2, h1, by rw [h2]; decide⟩

/-- C2: if some index `j < N` was never staged against the target key,
commit with `totalChunks = N` fails (the store's all-or-nothing assembly
rejects the identifier list) and the store — in particular the committed
object at the target key — is returned unchanged. -/
theorem commit_missing_index_fails (roles : Roles)
    (hrole : checkPermission roles (jstr "uploader") = true)
    (fn : JSStr) (hfn : fn ≠ []) (N j : Nat) (hj : j < N) (st : Store)
    (hmiss : alookup (fn, natBlockId j) st.staged = none) :
    commitRoute roles ⟨some fn, some N, none, none⟩ st =
      (Resp.serverError, st) := by
  have hfe : fn.isEmpty = false := by
    cases fn with
    | nil => exact absurd rfl hfn
    | cons a l => rfl
  have hN0 : (N == 0) = false := by
    simp only [beq_eq_false_iff_ne, ne_eq]
    omega
  have hlb : lookupBlocks st fn ((List.range N).map natBlockId) = none :=
    lookupBlocks_missing st fn _ (natBlockId j)
      (List.mem_map_of_mem _ (List.mem_range.mpr hj)) hmiss
  simp only [commitRoute, hrole, Bool.not_true, Bool.false_eq_true,
    if_false, hfe, hN0, Bool.or_self, mkFullPath_none, commitBlockList,
    hlb]

/-- C2 witness: chunks 0 and 2 of 3 staged, index 1 missing; commit fails
and the store is unchanged. -/
theorem commit_missing_index_fails_witness :
    checkPermission uploaderOnly (jstr "uploader") = true ∧
    jstr "f" ≠ [] ∧ 1 < 3 ∧
    alookup (jstr "f", natBlockId 1)
      (stageAll uploaderOnly (jstr "f") 3 abcChunks [0, 2]
        emptyStore).staged = none ∧
    commitRoute uploaderOnly ⟨some (jstr "f"), some 3, none, none⟩
        (stageAll uploaderOnly (jstr "f") 3 abcChunks [0, 2] emptyStore) =
      (Resp.serverError,
        stageAll uploaderOnly (jstr "f") 3 abcChunks [0, 2] emptyStore) := by
  refine ⟨by decide, by decide, by decide, by decide, ?_⟩
  exact commit_missing_index_fails uploaderOnly (by decide) (jstr "f")
    (by decide) 3 1 (by decide) _ (by decide)

theorem hmac0_good : GoodHmac hmac0 := by
  intro s
  constructor
  · simp [hmac0]
  · intro c hc
    have := List.eq_of_mem_replicate hc
    subst this
    decide

/-- Soundness of verification: a success implies the decoded payload
split into a nonempty path, a parsable unexpired expiry and a matching
signature. -/
theorem verifyFields_sound (hmac : JSStr → JSStr) (now : Nat)
    (decoded p : JSStr) (h : verifyFields hmac now decoded = some p) :
    ∃ expStr sig rest,
      splitOnChar '|' decoded = p :: expStr :: sig :: rest ∧
      p ≠ [] ∧ expStr ≠ [] ∧ sig = hmac (p ++ '|' :: expStr) ∧
      ∃ e : Int, parseIntJS expStr = some e ∧ ¬ e < (now : Int) := by
  rcases hs : splitOnChar '|' decoded with _ | ⟨path, _ | ⟨expStr, _ | ⟨sig, rest⟩⟩⟩ <;>
    simp only [verifyFields, hs] at h
  · cases h
  · cases h
  · cases h
  · by_cases h1 : path = [] ∨ expStr = [] ∨ sig = []
    · rw [if_pos h1] at h; cases h
    · rw [if_neg h1] at h
      by_cases h2 : sig ≠ hmac (path ++ '|' :: expStr)
      · rw [if_pos h2] at h; cases h
      · rw [if_neg h2] at h
        rcases hp : parseIntJS expStr with _ | exp <;> simp only [hp] at h
        · cases h
        · by_cases h3 : exp < (now : Int)
          · rw [if_pos h3] at h; cases h
          · rw [if_neg h3] at h
            simp only [Option.some.injEq] at h
            subst h
            push_neg at h1
            exact ⟨expStr, sig, rest, rfl, h1.1, h1.2.1,
              not_not.mp h2, exp, hp, h3⟩

/-- C4 counterexample: the claim fails as stated.  With a digest-shaped
hash, `verify(issue("a|b"))` fails even at issuance time (the `'|'` in
the path shifts the delimited fields), and a single-bit mutation of a
valid token for path "a" — flipping bit 1 of its final base64url
character, whose low bits the forgiving decoder discards — still
verifies successfully. -/
theorem token_roundtrip_counterexample :
    (¬ (∀ hmac : JSStr → JSStr, GoodHmac hmac →
        ∀ (path : JSStr) (now t : Nat) (tok2 : JSStr),
          (t < now + 300 →
            verifyDownloadToken hmac t (createDownloadToken hmac now path) =
              some path) ∧
          (oneBitMutation (createDownloadToken hmac now path) tok2 = true →
            verifyDownloadToken hmac t tok2 = none))) ∧
    oneBitMutation (createDownloadToken hmac0 0 (jstr "a"))
      (mutLastTo 'C' (createDownloadToken hmac0 0 (jstr "a"))) = true ∧
    verifyDownloadToken hmac0 0
      (mutLastTo 'C' (createDownloadToken hmac0 0 (jstr "a"))) =
      some (jstr "a") := by
  refine ⟨?_, by decide, by decide⟩
  intro h
  have h1 := (h hmac0 hmac0_good (jstr "a|b") 0 0 []).1 (by omega)
  have h2 : verifyDownloadToken hmac0 0
      (createDownloadToken hmac0 0 (jstr "a|b")) = none := by decide
  rw [h2] at h1
  cases h1

/-- C4 amended: for every nonempty ASCII path free of the `'|'`
delimiter, `verify(issue(path))` returns the path at any time up to the
embedded expiry (issuance + 300 s) and fails at any time strictly past
it; and verification succeeds only when the decoded token parses into
three fields whose signature matches the recomputed digest and whose
expiry is not in the past (so any parse failure, signature mismatch or
expiry yields failure).  The original claim's remaining clause — that
every single-bit mutation of a valid token fails — is dropped: mutations
confined to the discarded trailing bits of the final base64url character
decode to the same payload and verify (see the counterexample). -/
theorem token_roundtrip_amended (hmac : JSStr → JSStr) (hg : GoodHmac hmac)
    (path : JSStr) (hne : path ≠ []) (hpipe : '|' ∉ path)
    (hascii : ∀ c ∈ path, c.toNat < 128) (now t : Nat) :
    (t ≤ now + 300 →
      verifyDownloadToken hmac t (createDownloadToken hmac now path) =
        some path) ∧
    (now + 300 < t →
      verifyDownloadToken hmac t (createDownloadToken hmac now path) =
        none) ∧
    (∀ (token p : JSStr), verifyDownloadToken hmac t token = some p →
      ∃ expStr sig rest,
        splitOnChar '|' (strOfBytes (b64Decode token)) =
          p :: expStr :: sig :: rest ∧
        p ≠ [] ∧ expStr ≠ [] ∧ sig = hmac (p ++ '|' :: expStr) ∧
        ∃ e : Int, parseIntJS expStr = some e ∧ ¬ e < (t : Int)) := by
  have hmain := verify_createDownloadToken hmac hg now t path hne hpipe hascii
  refine ⟨?_, ?_, ?_⟩
  · intro ht
    rw [hmain, if_neg (by omega)]
  · intro ht
    rw [hmain, if_pos ht]
  · intro token p hp
    simp only [verifyDownloadToken] at hp
    exact verifyFields_sound hmac t _ p hp

/-- C4 witness: a concrete round trip through the amended theorem. -/
theorem token_roundtrip_amended_witness :
    GoodHmac hmac0 ∧ jstr "docs/report.pdf" ≠ [] ∧
    '|' ∉ jstr "docs/report.pdf" ∧
    (∀ c ∈ jstr "docs/report.pdf", c.toNat < 128) ∧ 1100 ≤ 1000 + 300 ∧
    verifyDownloadToken hmac0 1100
      (createDownloadToken hmac0 1000 (jstr "docs/report.pdf")) =
      some (jstr "docs/report.pdf") :=
  ⟨hmac0_good, by decide, by decide, by decide, by omega,
    (token_roundtrip_amended hmac0 hmac0_good (jstr "docs/report.pdf")
      (by decide) (by decide) (by decide) 1000 1100).1 (by omega)⟩

/-- C10 counterexample: the claim fails as stated.  A path that embeds a
decimal field and a digest-shaped field around its `'|'` characters —
here `"a|123|" ++ hmac0-digest` — produces a token that verifies
successfully (returning the shorter path `"a"`), because the verifier
splits the decoded payload on `'|'` and only looks at the first three
fields. -/
theorem pipe_path_token_counterexample :
    ¬ (∀ hmac : JSStr → JSStr, GoodHmac hmac →
        ∀ (path : JSStr) (now t : Nat), '|' ∈ path →
          verifyDownloadToken hmac t (createDownloadToken hmac now path) =
            none) := by
  intro h
  have hx := h hmac0 hmac0_good (jstr "a|123|" ++ List.replicate 64 '0')
    100 100 (by decide)
  exact absurd hx (by decide)

/-- C10 amended: the verifier can only ever return a `'|'`-free path (the
first field of the split payload), so `verify(issue(path))` for a path
containing `'|'` never returns that path — it fails or returns the
segment before the first `'|'` — and an object key containing `'|'` can
never be downloaded on the strength of a capability token alone. -/
theorem pipe_keys_not_downloadable (hmac : JSStr → JSStr) (now : Nat) :
    (∀ token p : JSStr,
      verifyDownloadToken hmac now token = some p → '|' ∉ p) ∧
    (∀ (path : JSStr) (t : Nat), '|' ∈ path →
      verifyDownloadToken hmac now (createDownloadToken hmac t path) ≠
        some path) ∧
    (∀ (dt : Option JSStr) (captured : JSStr),
      '|' ∈ normalizePath captured →
      downloadAuthorized hmac now none dt captured = false) := by
  refine ⟨verify_some_no_pipe hmac now, ?_, ?_⟩
  · intro path t hmem hv
    exact verify_some_no_pipe hmac now _ path hv hmem
  · intro dt captured hmem
    simp only [downloadAuthorized, tokenGrant]
    cases dt with
    | none => simp
    | some tok =>
        cases hv : verifyDownloadToken hmac now tok with
        | none => simp [hv]
        | some p =>
            have hnp : p ≠ normalizePath captured := fun hpb =>
              verify_some_no_pipe hmac now tok p hv (hpb ▸ hmem)
            simp [hv, hnp]

/-- C10 witness: concrete instance of the amended theorem. -/
theorem pipe_keys_not_downloadable_witness :
    '|' ∈ jstr "a|b" ∧
    verifyDownloadToken hmac0 0 (createDownloadToken hmac0 0 (jstr "a|b")) ≠
      some (jstr "a|b") :=
  ⟨by decide,
    (pipe_keys_not_downloadable hmac0 0).2.1 (jstr "a|b") 0 (by decide)⟩

/-- A token grant means the query carried a token whose verification
returned exactly the requested blob path. -/
theorem tokenGrant_some (hmac : JSStr → JSStr) (now : Nat)
    (dt : Option JSStr) (blobPath : JSStr)
    (h : tokenGrant hmac now dt blobPath = true) :
    ∃ tok, dt = some tok ∧
      verifyDownloadToken hmac now tok = some blobPath := by
  cases dt with
  | none => cases h
  | some tok =>
      simp only [tokenGrant] at h
      cases hv : verifyDownloadToken hmac now tok with
      | none => rw [hv] at h; cases h
      | some p =>
          rw [hv] at h
          simp only [decide_eq_true_eq] at h
          exact ⟨tok, rfl, by rw [hv, h]⟩

/-- C3 counterexample: the claim fails as stated.  A token issued for the
path `A = "a|123|" ++ hmac0-digest` (which contains `'|'`) authorizes the
download of the different key `"a"`: the verifier recovers only the first
`'|'`-field of the embedded path. -/
theorem download_token_binding_counterexample :
    ¬ (∀ hmac : JSStr → JSStr, GoodHmac hmac →
        ∀ (A : JSStr) (now t : Nat) (B : JSStr),
          downloadAuthorized hmac t none
              (some (createDownloadToken hmac now A)) B = true →
          normalizePath B = A) := by
  intro h
  have hx := h hmac0 hmac0_good (jstr "a|123|" ++ List.replicate 64 '0')
    100 100 (jstr "a") (by decide)
  exact absurd hx (by decide)

/-- C3 amended: a download is authorized only by reader-satisfying roles
or by a token whose recovered path equals the requested normalized key;
for a nonempty ASCII path A free of `'|'`, a token issued for A
authorizes only the key A (for a path containing `'|'` it can authorize
only the segment before the first `'|'`, per the counterexample); and no
other operation consults a capability token: every other route's guard is
a function of the role booleans alone and denies when no role bit is
set. -/
theorem capability_token_scope (hmac : JSStr → JSStr) (now : Nat) :
    (∀ (user : Option Roles) (dt : Option JSStr) (captured : JSStr),
      downloadAuthorized hmac now user dt captured = true →
      (∃ r, user = some r ∧ checkPermission r (jstr "reader") = true) ∨
      (∃ tok, dt = some tok ∧
        verifyDownloadToken hmac now tok = some (normalizePath captured))) ∧
    (GoodHmac hmac → ∀ A : JSStr, A ≠ [] → '|' ∉ A →
      (∀ c ∈ A, c.toNat < 128) → ∀ (t : Nat) (captured : JSStr),
      downloadAuthorized hmac now none
          (some (createDownloadToken hmac t A)) captured = true →
      normalizePath captured = A) ∧
    (∀ (required : JSStr) (roles : Roles) (dt1 dt2 : Option JSStr),
      roleOnlyGuard required roles dt1 = roleOnlyGuard required roles dt2) ∧
    (∀ (required : JSStr) (dt : Option JSStr),
      roleOnlyGuard required ⟨false, false, false⟩ dt = false) := by
  refine ⟨?_, ?_, fun _ _ _ _ => rfl, ?_⟩
  · intro user dt captured hauth
    simp only [downloadAuthorized] at hauth
    cases user with
    | none =>
        rw [if_neg (fun hh : false = true => by cases hh)] at hauth
        exact Or.inr (tokenGrant_some hmac now dt _ hauth)
    | some r =>
        by_cases hr : checkPermission r (jstr "reader") = true
        · exact Or.inl ⟨r, rfl, hr⟩
        · rw [if_neg hr] at hauth
          exact Or.inr (tokenGrant_some hmac now dt _ hauth)
  · intro hg A hne hpipe hascii t captured hauth
    have hmain := verify_createDownloadToken hmac hg t now A hne hpipe hascii
    simp only [downloadAuthorized] at hauth
    rw [if_neg (fun hh : false = true => by cases hh)] at hauth
    obtain ⟨tok, htok, hv⟩ := tokenGrant_some hmac now _ _ hauth
    have htok2 : tok = createDownloadToken hmac t A :=
      (Option.some.inj htok).symm
    subst htok2
    rw [hmain] at hv
    by_cases ht : t + 300 < now
    · rw [if_pos ht] at hv; cases hv
    · rw [if_neg ht] at hv
      exact (Option.some.inj hv).symm
  · intro required dt
    simp only [roleOnlyGuard, checkPermission]
    split_ifs <;> rfl

/-- C3 witness: a token issued for "x" authorizes exactly the key "x". -/
theorem capability_token_scope_witness :
    GoodHmac hmac0 ∧
    downloadAuthorized hmac0 0 none
      (some (createDownloadToken hmac0 0 (jstr "x"))) (jstr "x") = true ∧
    normalizePath (jstr "x") = jstr "x" :=
  ⟨hmac0_good, by decide,
    (capability_token_scope hmac0 0).2.1 hmac0_good (jstr "x") (by decide)
      (by decide) (by decide) 0 (jstr "x") (by decide)⟩

/-- C5 counterexample: the claim fails as stated.  The `/exists/` route
checks for an object at exactly the requested key; for a store containing
only `docs/a.txt`, the check on the folder `docs` answers `false`
although `docs/` is a strict prefix of an existing key. -/
theorem exists_check_counterexample :
    ¬ (∀ (roles : Roles) (st : Store) (F : JSStr),
        checkPermission roles (jstr "reader") = true →
        ((existsRoute roles F st).2 = some true ↔
          ∃ kv ∈ st.committed,
            (F ++ ['/']).isPrefixOf kv.1 = true ∧ kv.1 ≠ F ++ ['/'])) := by
  intro h
  have hiff := h ⟨true, false, false⟩ ⟨[(jstr "docs/a.txt", [65])], []⟩
    (jstr "docs") (by decide)
  have hex : ∃ kv ∈ ([(jstr "docs/a.txt", ([65] : List Nat))] :
      List (JSStr × List Nat)),
      (jstr "docs" ++ ['/']).isPrefixOf kv.1 = true ∧
        kv.1 ≠ jstr "docs" ++ ['/'] :=
    ⟨(jstr "docs/a.txt", [65]), by decide, by decide, by decide⟩
  exact absurd (hiff.mpr hex) (by decide)

/-- C5 amended: the existence check is exact-key: it answers `true` iff
the store holds an object whose key is exactly the normalized requested
path; prefix-based folder existence is realized only through listings. -/
theorem exists_check_exact_key (roles : Roles) (st : Store) (F : JSStr)
    (hr : checkPermission roles (jstr "reader") = true) :
    (existsRoute roles F st).2 = some true ↔
      ∃ v, (normalizePath F, v) ∈ st.committed := by
  simp only [existsRoute, hr, Bool.not_true, Bool.false_eq_true, if_false]
  constructor
  · intro h
    simp only [Option.some.injEq] at h
    simp only [existsBlob, Option.isSome_iff_exists] at h
    obtain ⟨v, hv⟩ := h
    exact ⟨v, alookup_mem _ v _ hv⟩
  · rintro ⟨v, hv⟩
    have hs := alookup_isSome_of_mem _ v _ hv
    simp only [existsBlob, Option.some.injEq]
    exact hs

/-- C5 witness: concrete instance of the amended theorem. -/
theorem exists_check_exact_key_witness :
    checkPermission ⟨true, false, false⟩ (jstr "reader") = true ∧
    ((existsRoute ⟨true, false, false⟩ (jstr "docs/a.txt")
        ⟨[(jstr "docs/a.txt", [65])], []⟩).2 = some true ↔
      ∃ v, (normalizePath (jstr "docs/a.txt"), v) ∈
        [(jstr "docs/a.txt", ([65] : List Nat))]) :=
  ⟨by decide, exists_check_exact_key ⟨true, false, false⟩
    ⟨[(jstr "docs/a.txt", [65])], []⟩ (jstr "docs/a.txt") (by decide)⟩

/-- C6: evaluation at the failing input.  The DELETE catch-all is
registered before the `/folders/` route although its comment says it
must be last, so `DELETE /folders/d` on a store holding only the marker
`d/.keep` is handled by the blob-delete catch-all: it attempts to delete
a blob literally named `folders/d`, fails with 500, and leaves the
marker in place — whereas the (unreachable) folder handler, invoked
directly, performs the emptiness check and deletes the marker as the
claim describes. -/
theorem delete_folder_dispatch_bug :
    handleDeleteRequest uploaderOnly (jstr "/folders/d")
        ⟨[(jstr "d/.keep", [])], []⟩ =
      (Resp.serverError, ⟨[(jstr "d/.keep", [])], []⟩) ∧
    foldersDeleteRoute uploaderOnly (jstr "d")
        ⟨[(jstr "d/.keep", [])], []⟩ = (Resp.ok, ⟨[], []⟩) :=
  ⟨by decide, by decide⟩

/-- C8 counterexample: the claim fails as stated.  A stage request with
`chunkIndex = "5"` and `totalChunks = "3"` is out of range, yet the
route accepts it and stages a block — only presence of the parameters is
validated. -/
theorem stage_validation_counterexample :
    ¬ (∀ (roles : Roles) (q : StageQuery) (body : List Nat) (st : Store),
        checkPermission roles (jstr "uploader") = true →
        (¬ presenceOk q ∨ ¬ chunkIndexValid q) →
        (stageChunkRoute roles q body st).1 = Resp.badRequest ∧
        (stageChunkRoute roles q body st).2 = st) := by
  intro h
  have hinv : ¬ chunkIndexValid
      ⟨some (jstr "f"), some (jstr "5"), some (jstr "3"), none⟩ := by
    rintro ⟨ci, tc, hci, htc, i, t, hpi, hpt, h0, hlt⟩
    simp only [Option.some.injEq] at hci htc
    subst hci
    subst htc
    have h5 : parseIntJS (jstr "5") = some 5 := by decide
    have h3 : parseIntJS (jstr "3") = some 3 := by decide
    rw [h5] at hpi
    rw [h3] at hpt
    simp only [Option.some.injEq] at hpi hpt
    omega
  have hres := h uploaderOnly
    ⟨some (jstr "f"), some (jstr "5"), some (jstr "3"), none⟩ [66]
    emptyStore (by decide) (Or.inr hinv)
  exact absurd hres.1 (by decide)

/-- C8 amended: given uploader permission, the stage route returns a
validation error exactly when `filename` is missing or empty,
`chunkIndex` is absent, or `totalChunks` is missing or empty — the
numeric range of `chunkIndex` is never validated — and in the error case
the store is untouched. -/
theorem stage_validation_presence_only (roles : Roles) (q : StageQuery)
    (body : List Nat) (st : Store)
    (hrole : checkPermission roles (jstr "uploader") = true) :
    ((stageChunkRoute roles q body st).1 = Resp.badRequest ↔
      ¬ presenceOk q) ∧
    ((stageChunkRoute roles q body st).1 = Resp.badRequest →
      (stageChunkRoute roles q body st).2 = st) := by
  rcases q with ⟨fn, ci, tc, fo⟩
  cases fn with
  | none =>
      cases ci <;> cases tc <;>
        simp [stageChunkRoute, hrole, presenceOk, truthy]
  | some f =>
      cases ci with
      | none =>
          cases tc <;> simp [stageChunkRoute, hrole, presenceOk, truthy]
      | some c =>
          cases tc with
          | none => simp [stageChunkRoute, hrole, presenceOk, truthy]
          | some t =>
              by_cases hfe : f.isEmpty = true <;>
                by_cases hte : t.isEmpty = true <;>
                  simp [stageChunkRoute, hrole, presenceOk, truthy, hfe, hte]

/-- C8 witness: a request missing `chunkIndex` is rejected. -/
theorem stage_validation_presence_only_witness :
    checkPermission uploaderOnly (jstr "uploader") = true ∧
    ((stageChunkRoute uploaderOnly
        ⟨some (jstr "f"), none, some (jstr "3"), none⟩ [66]
        emptyStore).1 = Resp.badRequest ↔
      ¬ presenceOk ⟨some (jstr "f"), none, some (jstr "3"), none⟩) :=
  ⟨by decide, (stage_validation_presence_only uploaderOnly
    ⟨some (jstr "f"), none, some (jstr "3"), none⟩ [66] emptyStore
    (by decide)).1⟩

/-- C9: the role-satisfaction predicate is exactly the monotone hierarchy
Reader ⊂ Uploader ⊂ Admin: `reader` is satisfied iff any role bit is
set, `uploader` iff uploader or admin, `admin` iff admin, every other
required-role string is denied, and the role set
{isReader, ¬isUploader, ¬isAdmin} satisfies `reader` only. -/
theorem role_satisfaction_hierarchy :
    (∀ roles : Roles,
      checkPermission roles (jstr "reader") =
        (roles.isReader || roles.isUploader || roles.isAdmin) ∧
      checkPermission roles (jstr "uploader") =
        (roles.isUploader || roles.isAdmin) ∧
      checkPermission roles (jstr "admin") = roles.isAdmin) ∧
    (∀ (roles : Roles) (req : JSStr), req ≠ jstr "reader" →
      req ≠ jstr "uploader" → req ≠ jstr "admin" →
      checkPermission roles req = false) ∧
    (checkPermission ⟨true, false, false⟩ (jstr "reader") = true ∧
      checkPermission ⟨true, false, false⟩ (jstr "uploader") = false ∧
      checkPermission ⟨true, false, false⟩ (jstr "admin") = false) := by
  refine ⟨?_, ?_, by decide⟩
  · intro roles
    rcases roles with ⟨r, u, a⟩
    cases r <;> cases u <;> cases a <;> exact ⟨by decide, by decide, by decide⟩
  · intro roles req h1 h2 h3
    simp only [checkPermission, if_neg h3, if_neg h2, if_neg h1]

/-- C9 witness: an unknown required-role string is always denied. -/
theorem role_satisfaction_hierarchy_witness :
    jstr "owner" ≠ jstr "reader" ∧ jstr "owner" ≠ jstr "uploader" ∧
    jstr "owner" ≠ jstr "admin" ∧
    checkPermission ⟨true, true, true⟩ (jstr "owner") = false :=
  ⟨by decide, by decide, by decide,
    role_satisfaction_hierarchy.2.1 ⟨true, true, true⟩ (jstr "owner")
      (by decide) (by decide) (by decide)⟩

theorem sumChildren_bumpFolder (fp sub : JSStr) (fs : List FolderEntry) :
    sumChildren (bumpFolder fp sub fs) = sumChildren fs + 1 := by
  induction fs with
  | nil => simp [bumpFolder, sumChildren]
  | cons f rest ih =>
      by_cases hf : f.name = sub
      · simp only [bumpFolder, if_pos hf, sumChildren, List.map_cons,
          List.sum_cons]
        omega
      · simp only [bumpFolder, if_neg hf, sumChildren, List.map_cons,
          List.sum_cons] at *
        omega

/-- Each loop iteration adds exactly one unit of weight — one file entry
or one folder-children increment — precisely when the blob is an
eligible (non-marker, in-folder) key, and nothing otherwise. -/
theorem hierStep_measure (fp : JSStr)
    (acc : List FolderEntry × List FileEntry) (b : BlobItem) :
    (hierStep fp acc b).2.length + sumChildren (hierStep fp acc b).1 =
      acc.2.length + sumChildren acc.1 +
        (if eligibleBlob fp b = true then 1 else 0) := by
  by_cases hk : isKeepName (normalizePath b.name) = true
  · simp [hierStep, eligibleBlob, hk]
  · by_cases hfe : fp.isEmpty = true
    · by_cases hc : '/' ∈ normalizePath b.name
      · simp [hierStep, eligibleBlob, hk, hfe, hc, sumChildren_bumpFolder]
        omega
      · simp [hierStep, eligibleBlob, hk, hfe, hc]
        omega
    · by_cases hpre :
          (fp ++ ['/']).isPrefixOf (normalizePath b.name) = true
      · by_cases hc : '/' ∈ (normalizePath b.name).drop (fp.length + 1)
        · simp [hierStep, eligibleBlob, hk, hfe, hpre, hc,
            sumChildren_bumpFolder]
          omega
        · simp [hierStep, eligibleBlob, hk, hfe, hpre, hc]
          omega
      · simp [hierStep, eligibleBlob, hk, hfe, hpre]

/-- A loop iteration never adds a marker-named file entry. -/
theorem hierStep_no_keep (fp : JSStr)
    (acc : List FolderEntry × List FileEntry) (b : BlobItem)
    (hacc : ∀ fe ∈ acc.2, isKeepName fe.fullPath = false) :
    ∀ fe ∈ (hierStep fp acc b).2, isKeepName fe.fullPath = false := by
  by_cases hk : isKeepName (normalizePath b.name) = true
  · simpa [hierStep, hk] using hacc
  · by_cases hfe : fp.isEmpty = true
    · by_cases hc : '/' ∈ normalizePath b.name
      · simpa [hierStep, hk, hfe, hc] using hacc
      · intro fe hmem
        simp [hierStep, hk, hfe, hc] at hmem
        rcases hmem with h1 | h2
        · exact hacc fe h1
        · rw [h2]
          exact Bool.eq_false_iff.mpr hk
    · by_cases hpre :
          (fp ++ ['/']).isPrefixOf (normalizePath b.name) = true
      · by_cases hc : '/' ∈ (normalizePath b.name).drop (fp.length + 1)
        · simpa [hierStep, hk, hfe, hpre, hc] using hacc
        · intro fe hmem
          simp [hierStep, hk, hfe, hpre, hc] at hmem
          rcases hmem with h1 | h2
          · exact hacc fe h1
          · rw [h2]
            exact Bool.eq_false_iff.mpr hk
      · simpa [hierStep, hk, hfe, hpre] using hacc

theorem buildHierarchy_measure (fp : JSStr) (blobs : List BlobItem)
    (acc : List FolderEntry × List FileEntry) :
    (blobs.foldl (hierStep fp) acc).2.length +
      sumChildren (blobs.foldl (hierStep fp) acc).1 =
      acc.2.length + sumChildren acc.1 +
        (blobs.filter (eligibleBlob fp)).length := by
  induction blobs generalizing acc with
  | nil => simp
  | cons b rest ih =>
      simp only [List.foldl_cons, List.filter_cons]
      rw [ih]
      rw [hierStep_measure fp acc b]
      by_cases he : eligibleBlob fp b = true
      · simp only [he, if_true, List.length_cons]
        omega
      · have he2 := Bool.eq_false_iff.mpr he
        simp only [he2, Bool.false_eq_true, if_false]
        omega

theorem buildHierarchy_files_no_keep (fp : JSStr) (blobs : List BlobItem)
    (acc : List FolderEntry × List FileEntry)
    (hacc : ∀ fe ∈ acc.2, isKeepName fe.fullPath = false) :
    ∀ fe ∈ (blobs.foldl (hierStep fp) acc).2,
      isKeepName fe.fullPath = false := by
  induction blobs generalizing acc with
  | nil => exact hacc
  | cons b rest ih =>
      simp only [List.foldl_cons]
      exact ih _ (hierStep_no_keep fp acc b hacc)

/-- C7 counterexample: the claim fails as stated.  A `.keep` marker that
is a descendant of the queried folder — here `d/sub/.keep` under `d` —
is skipped outright: it lands in no file bucket and no folder bucket, so
not every descendant key is assigned to exactly one bucket. -/
theorem hierarchy_partition_counterexample :
    ¬ (∀ (blobs : List BlobItem) (P : JSStr),
        (buildHierarchy blobs P).2.length +
            sumChildren (buildHierarchy blobs P).1 =
          (blobs.filter (descendantBlob P)).length ∧
        ∀ fe ∈ (buildHierarchy blobs P).2,
          isKeepName fe.fullPath = false) := by
  intro h
  have hcount := (h [⟨jstr "d/sub/.keep", 0, 0⟩] (jstr "d")).1
  exact absurd hcount (by decide)

/-- C7 amended: `buildHierarchy` assigns every eligible key — every
non-marker key that is a descendant of the queried folder (at the root,
every non-marker key) — to exactly one file entry or exactly one
folder-children increment: file count plus total children equals the
number of eligible keys.  Marker keys (`.keep` or ending in `/.keep`)
are skipped entirely and in particular never appear as file entries. -/
theorem hierarchy_partition (blobs : List BlobItem) (P : JSStr) :
    (buildHierarchy blobs P).2.length +
        sumChildren (buildHierarchy blobs P).1 =
      (blobs.filter (eligibleBlob P)).length ∧
    ∀ fe ∈ (buildHierarchy blobs P).2, isKeepName fe.fullPath = false := by
  constructor
  · have h := buildHierarchy_measure P blobs ([], [])
    simpa [buildHierarchy, sumChildren] using h
  · exact buildHierarchy_files_no_keep P blobs ([], []) (by simp)
